import Mathlib

/-!
Verification of the Ising-model energy evaluator and ground-state search of the
qml-mooc notebooks.  Numeric values (coupling strengths, field strengths, spin
values, energies) are modelled as exact rationals; every value appearing in the
notebooks (±1 spins, couplings 1.0 and −1.0) is exactly representable, so no
floating-point drift is introduced by the embedding.  Fallible evaluation
(Python raising IndexError on an out-of-range list access) is modelled with
Option: `none` is an evaluation that raises, `some e` an evaluation returning
the energy `e`.
-/

/-- One pass of the generator inside `calculate_energy`:
`sum(J_ij*σ[i]*σ[i+1] for i, J_ij in enumerate(J))`, with `k` the index that
`enumerate` assigns to the head of the remaining coupling list.  An
out-of-range access to `σ` aborts the whole evaluation (Python's IndexError
propagates out of `sum`). -/
def energyTerms : List ℚ → Nat → List ℚ → Option ℚ
  | [], _, _ => some 0
  | Jij :: rest, k, σ =>
    match σ[k]?, σ[k+1]?, energyTerms rest (k+1) σ with
    | some a, some b, some s => some (Jij * a * b + s)
    | _, _, _ => none

/-- The evaluator written in the notebook (src/unnamed/part_000, cell at lines
53–54): `def calculate_energy(J, σ): return sum(J_ij*σ[i]*σ[i+1] for i, J_ij
in enumerate(J))`.  `J` is the list of consecutive-pair coupling strengths of
a spin chain and `σ` the spin configuration. -/
def calculate_energy (J σ : List ℚ) : Option ℚ :=
  energyTerms J 0 σ

/-- The enumeration `itertools.product(*[{+1,-1} for _ in range(n)])` of the
exhaustive-search loop (src/unnamed/part_000, lines 118–120), generalised from
the notebook's `range(3)` to an arbitrary site count: every length-`n` list
over {+1, −1}, leftmost site varying slowest. -/
def allConfigs : Nat → List (List ℚ)
  | 0 => [[]]
  | n + 1 => ((allConfigs n).map (fun σ => 1 :: σ)) ++
      ((allConfigs n).map (fun σ => (-1) :: σ))

/-- Minimum of a list of rationals, `none` on the empty list. -/
def minList : List ℚ → Option ℚ
  | [] => none
  | x :: xs =>
    match minList xs with
    | none => some x
    | some m => some (min x m)

/-- The energies the exhaustive loop prints: each configuration of the
enumeration evaluated with `calculate_energy` (configurations on which the
evaluator raises contribute nothing). -/
def observedEnergies (J : List ℚ) (n : Nat) : List ℚ :=
  (allConfigs n).filterMap (calculate_energy J)

/-- Modelled from the spec: the Ground-State Search's reduction of the printed
(energy, configuration) list to the minimum energy.  The notebook's loop only
prints every pair and the optimum is read off the output ("We see that -2 is
the optimum"), so the reduction itself is not code under src. -/
def minEnergy (J : List ℚ) (n : Nat) : Option ℚ :=
  minList (observedEnergies J n)

/-- Modelled from the spec: the set of configurations achieving the global
minimum energy; "ALL such configurations are valid ground states and must be
discoverable" (spec §4.2); the notebook reads them off the printed output. -/
def groundStates (J : List ℚ) (n : Nat) : List (List ℚ) :=
  (allConfigs n).filter (fun σ => decide (calculate_energy J σ = minEnergy J n))

/-- Sum of the coupling terms Σ_{(i,j)∈couplings} J_ij·σ_i·σ_j of the spec's
§4.1 formula, failing on an out-of-range site reference. -/
def couplingTerms : List ((Nat × Nat) × ℚ) → List ℚ → Option ℚ
  | [], _ => some 0
  | ((i, j), Jij) :: rest, σ =>
    match σ[i]?, σ[j]?, couplingTerms rest σ with
    | some a, some b, some s => some (Jij * a * b + s)
    | _, _, _ => none

/-- Sum of the field terms Σ_{i∈fields} h_i·σ_i of the spec's §4.1 formula,
failing on an out-of-range site reference. -/
def fieldTerms : List (Nat × ℚ) → List ℚ → Option ℚ
  | [], _ => some 0
  | (i, hi) :: rest, σ =>
    match σ[i]?, fieldTerms rest σ with
    | some a, some s => some (hi * a + s)
    | _, _ => none

/-- Modelled from the spec, to compare the spec's §4.1 formula with the source
evaluator: H = −Σ_{(i,j)∈couplings} J_ij·σ_i·σ_j − Σ_{i∈fields} h_i·σ_i +
offset.  The general evaluator with a negative coupling sum, a field set and
an offset appears only in the spec; the source's `calculate_energy` is the
chain evaluator above. -/
def specEnergy (couplings : List ((Nat × Nat) × ℚ)) (fields : List (Nat × ℚ))
    (offset : ℚ) (σ : List ℚ) : Option ℚ :=
  match couplingTerms couplings σ, fieldTerms fields σ with
  | some cs, some fs => some (-cs - fs + offset)
  | _, _ => none

/-- The binary→spin translation of the source (src/unnamed/part_001, line 275:
`y_train = 2 * labels[idx_train] - 1  # binary -> spin`). -/
def binaryToSpin (w : ℤ) : ℤ :=
  2 * w - 1

/-- Modelled from the spec: the inverse spin→binary translation s ↦ w =
(s+1)/2 (spec §6); only the binary→spin direction appears under src. -/
def spinToBinary (s : ℤ) : ℤ :=
  (s + 1) / 2

/-- Modelled from the spec: the heuristic stochastic search's reduction of the
sampler's batch of (configuration, energy) pairs to the pair of minimum
observed energy — the `response.first` contract of the external dimod sampler
used at src/unnamed/part_001, lines 614–617; the sampler itself is an external
collaborator and is not reimplemented here. -/
def heuristicResult : List (List ℚ × ℚ) → Option (List ℚ × ℚ)
  | [] => none
  | r :: rest =>
    match heuristicResult rest with
    | none => some r
    | some b => some (if b.2 < r.2 then b else r)

/-! ## Helper lemmas -/

/-- Negating every spin leaves every pairwise term, hence the whole sum,
unchanged. -/
theorem energyTerms_map_neg (J : List ℚ) (k : Nat) (σ : List ℚ) :
    energyTerms J k (σ.map (fun x => -x)) = energyTerms J k σ := by
  induction J generalizing k with
  | nil => rfl
  | cons Jij rest ih =>
    simp only [energyTerms, List.getElem?_map, ih]
    cases σ[k]? with
    | none => rfl
    | some a =>
      cases σ[k+1]? with
      | none => rfl
      | some b =>
        cases energyTerms rest (k+1) σ with
        | none => rfl
        | some s =>
          simp only [Option.map_some', Option.some.injEq]
          ring

/-- The evaluation only inspects the entries of `σ` at indices `k` through
`k + J.length`. -/
theorem energyTerms_congr (J : List ℚ) (k : Nat) (σ τ : List ℚ)
    (h : ∀ i : Nat, k ≤ i → i ≤ k + J.length → σ[i]? = τ[i]?) :
    energyTerms J k σ = energyTerms J k τ := by
  induction J generalizing k with
  | nil => rfl
  | cons Jij rest ih =>
    simp only [List.length_cons] at h
    have h0 : σ[k]? = τ[k]? := h k le_rfl (by omega)
    have h1 : σ[k+1]? = τ[k+1]? := h (k+1) (by omega) (by omega)
    have h2 : energyTerms rest (k+1) σ = energyTerms rest (k+1) τ :=
      ih (k+1) (fun i hi1 hi2 => h i (by omega) (by omega))
    simp only [energyTerms, h0, h1, h2]

/-- The evaluation succeeds exactly when the coupling list is empty or the
configuration has entries at every accessed index. -/
theorem energyTerms_isSome_iff (J : List ℚ) (k : Nat) (σ : List ℚ) :
    (energyTerms J k σ).isSome = true ↔ (J = [] ∨ k + J.length + 1 ≤ σ.length) := by
  induction J generalizing k with
  | nil => simp [energyTerms]
  | cons Jij rest ih =>
    simp only [energyTerms, List.length_cons]
    cases hk : σ[k]? with
    | none =>
      have hlen : σ.length ≤ k := List.getElem?_eq_none_iff.mp hk
      simp only [Option.isSome_none, Bool.false_eq_true, false_iff]
      push_neg
      exact ⟨List.cons_ne_nil Jij rest, by omega⟩
    | some a =>
      have hka : k < σ.length := (List.getElem?_eq_some.mp hk).1
      cases hk1 : σ[k+1]? with
      | none =>
        have hlen : σ.length ≤ k + 1 := List.getElem?_eq_none_iff.mp hk1
        simp only [Option.isSome_none, Bool.false_eq_true, false_iff]
        push_neg
        exact ⟨List.cons_ne_nil Jij rest, by omega⟩
      | some b =>
        have hkb : k + 1 < σ.length := (List.getElem?_eq_some.mp hk1).1
        cases hrest : energyTerms rest (k+1) σ with
        | none =>
          have := ih (k+1)
          rw [hrest] at this
          simp only [Option.isSome_none, Bool.false_eq_true, false_iff] at this ⊢
          push_neg at this ⊢
          refine ⟨List.cons_ne_nil Jij rest, ?_⟩
          rcases this with ⟨hne, hlt⟩
          omega
        | some s =>
          have := ih (k+1)
          rw [hrest] at this
          simp only [Option.isSome_some, true_iff] at this
          simp only [Option.isSome_some, true_iff]
          rcases this with h | h
          · subst h
            right
            simp only [List.length_nil] at *
            omega
          · right
            omega

/-- The minimum is `none` exactly on the empty list. -/
theorem minList_eq_none_iff (l : List ℚ) : minList l = none ↔ l = [] := by
  cases l with
  | nil => simp [minList]
  | cons x xs =>
    simp only [minList]
    cases minList xs <;> simp

/-- Lower bound: the minimum of a list is less than or equal to each member. -/
theorem minList_le (l : List ℚ) (m : ℚ) (hm : minList l = some m) :
    ∀ x ∈ l, m ≤ x := by
  induction l generalizing m with
  | nil => cases hm
  | cons y ys ih =>
    intro x hx
    unfold minList at hm
    cases h : minList ys with
    | none =>
      rw [h] at hm
      simp only [Option.some.injEq] at hm
      subst hm
      have hnil : ys = [] := (minList_eq_none_iff ys).mp h
      subst hnil
      rcases List.mem_cons.mp hx with rfl | hx
      · exact le_rfl
      · cases hx
    | some m0 =>
      rw [h] at hm
      simp only [Option.some.injEq] at hm
      subst hm
      rcases List.mem_cons.mp hx with rfl | hx
      · exact min_le_left _ _
      · exact le_trans (min_le_right _ _) (ih m0 h x hx)

/-- Attainment: the minimum of a list is a member of it. -/
theorem minList_mem (l : List ℚ) (m : ℚ) (hm : minList l = some m) : m ∈ l := by
  induction l generalizing m with
  | nil => cases hm
  | cons y ys ih =>
    unfold minList at hm
    cases h : minList ys with
    | none =>
      rw [h] at hm
      simp only [Option.some.injEq] at hm
      subst hm
      exact List.mem_cons_self y ys
    | some m0 =>
      rw [h] at hm
      simp only [Option.some.injEq] at hm
      subst hm
      rcases le_total y m0 with hle | hle
      · rw [min_eq_left hle]; exact List.mem_cons_self y ys
      · rw [min_eq_right hle]; exact List.mem_cons_of_mem y (ih m0 h)

/-- The enumeration contains exactly the length-`n` lists over {+1, −1}. -/
theorem mem_allConfigs (n : Nat) (σ : List ℚ) :
    σ ∈ allConfigs n ↔ σ.length = n ∧ ∀ x ∈ σ, x = 1 ∨ x = -1 := by
  induction n generalizing σ with
  | zero =>
    simp only [allConfigs, List.mem_singleton]
    constructor
    · rintro rfl; simp
    · rintro ⟨h, -⟩; exact List.length_eq_zero.mp h
  | succ n ih =>
    simp only [allConfigs, List.mem_append, List.mem_map]
    constructor
    · rintro (⟨τ, hτ, rfl⟩ | ⟨τ, hτ, rfl⟩) <;>
        rcases (ih τ).mp hτ with ⟨hlen, hval⟩
      · refine ⟨by simp [hlen], ?_⟩
        intro x hx
        rcases List.mem_cons.mp hx with rfl | hx
        · exact Or.inl rfl
        · exact hval x hx
      · refine ⟨by simp [hlen], ?_⟩
        intro x hx
        rcases List.mem_cons.mp hx with rfl | hx
        · exact Or.inr rfl
        · exact hval x hx
    · rintro ⟨hlen, hval⟩
      cases σ with
      | nil => simp at hlen
      | cons x τ =>
        simp only [List.length_cons, Nat.succ.injEq] at hlen
        have hτ : τ ∈ allConfigs n :=
          (ih τ).mpr ⟨hlen, fun y hy => hval y (List.mem_cons_of_mem x hy)⟩
        rcases hval x (List.mem_cons_self x τ) with rfl | rfl
        · exact Or.inl ⟨τ, hτ, rfl⟩
        · exact Or.inr ⟨τ, hτ, rfl⟩

/-- The enumeration has exactly 2^n entries. -/
theorem length_allConfigs (n : Nat) : (allConfigs n).length = 2 ^ n := by
  induction n with
  | zero => rfl
  | succ n ih =>
    simp only [allConfigs, List.length_append, List.length_map, ih]
    ring

/-! ## Claims -/

/-- Claim C2 (amended): exhaustive search on the N=3 instance with the chain
couplings J = [1.0, −1.0] (the dictionary {(0,1): 1.0, (1,2): −1.0}) and zero
fields finds minimum energy −2.0, achieved by exactly the two configurations
(+1,−1,−1) and (−1,+1,+1) and no other configuration. -/
theorem exhaustive_N3 :
    minEnergy [1, -1] 3 = some (-2) ∧
    groundStates [1, -1] 3 = [[1, -1, -1], [-1, 1, 1]] := by
  norm_num [minEnergy, observedEnergies, groundStates, allConfigs, minList,
    calculate_energy, energyTerms, min_def, List.filter]

/-- Claim C2, counterexample to the claim as stated: the configuration
(+1,−1,+1) named by the spec has energy 0, not the minimum −2.0, and is not a
ground state; the same holds for (−1,+1,−1). -/
theorem exhaustive_N3_counterexample :
    calculate_energy [1, -1] [1, -1, 1] = some 0 ∧
    calculate_energy [1, -1] [-1, 1, -1] = some 0 ∧
    minEnergy [1, -1] 3 = some (-2) ∧
    [1, -1, 1] ∉ groundStates [1, -1] 3 ∧
    [-1, 1, -1] ∉ groundStates [1, -1] 3 := by
  norm_num [minEnergy, observedEnergies, groundStates, allConfigs, minList,
    calculate_energy, energyTerms, min_def, List.filter]

/-- Claim C5: a pure coupling Hamiltonian is symmetric under a global spin
flip — `calculate_energy` (which has no field terms) gives the same result on
−σ as on σ, for every coupling list and every configuration. -/
theorem calculate_energy_global_flip (J σ : List ℚ) :
    calculate_energy J (σ.map (fun x => -x)) = calculate_energy J σ :=
  energyTerms_map_neg J 0 σ

/-- Claim C9: the evaluator is deterministic and free of hidden state — its
result is a function of the values of its two arguments alone, so any two
evaluations on entrywise-equal inputs return the identical value. -/
theorem calculate_energy_deterministic (J K σ τ : List ℚ)
    (hJ : ∀ i : Nat, J[i]? = K[i]?) (hσ : ∀ i : Nat, σ[i]? = τ[i]?) :
    calculate_energy J σ = calculate_energy K τ := by
  have h1 : J = K := List.ext_getElem? hJ
  have h2 : σ = τ := List.ext_getElem? hσ
  rw [h1, h2]

/-- Claim C9 witness. -/
theorem calculate_energy_deterministic_witness :
    calculate_energy [1, -1] [1, -1, 1] = calculate_energy [1, -1] [1, -1, 1] :=
  calculate_energy_deterministic [1, -1] [1, -1] [1, -1, 1] [1, -1, 1]
    (fun _ => rfl) (fun _ => rfl)

/-- Claim C10: `calculate_energy` reads only the first `J.length + 1` entries
of the configuration — two configurations agreeing at indices 0 through
`J.length` give the same result — and for an empty coupling list the result is
0 for every configuration. -/
theorem calculate_energy_locality :
    (∀ J σ τ : List ℚ,
      (∀ i : Nat, i ≤ J.length → σ[i]? = τ[i]?) →
      calculate_energy J σ = calculate_energy J τ) ∧
    (∀ σ : List ℚ, calculate_energy [] σ = some 0) := by
  constructor
  · intro J σ τ h
    exact energyTerms_congr J 0 σ τ (fun i _ hi2 => h i (by omega))
  · intro σ
    rfl

/-- Claim C10 witness: a longer configuration agreeing on the read prefix
gives the same energy, and the empty coupling list gives energy 0 even on a
configuration with an invalid entry. -/
theorem calculate_energy_locality_witness :
    calculate_energy [1] [1, -1] = calculate_energy [1] [1, -1, 7] ∧
    calculate_energy [] [7] = some 0 :=
  ⟨calculate_energy_locality.1 [1] [1, -1] [1, -1, 7]
      (fun i hi => by
        match i with
        | 0 => rfl
        | 1 => rfl
        | n + 2 => exact absurd hi (by simp)),
    calculate_energy_locality.2 [7]⟩

/-- Claim C6 (amended): the evaluator raises exactly when the coupling list is
nonempty and the configuration is missing one of the referenced sites 0 …
`J.length` — the out-of-range error propagates to the caller — and evaluation
success never depends on the configuration's values, which are not validated
against {+1, −1}. -/
theorem calculate_energy_error_conditions (J σ : List ℚ) :
    (calculate_energy J σ).isSome = true ↔ (J = [] ∨ J.length + 1 ≤ σ.length) := by
  have h := energyTerms_isSome_iff J 0 σ
  simpa using h

/-- Claim C6, counterexample to the claim as stated: a configuration whose
entries 2 and 3 are not among the two allowed spin symbols is accepted without
any invalid-value error, and the evaluator silently returns 1·2·3 = 6. -/
theorem calculate_energy_no_value_check :
    calculate_energy [1] [2, 3] = some 6 ∧ ¬((2 : ℚ) = 1 ∨ (2 : ℚ) = -1) := by
  norm_num [calculate_energy, energyTerms]

/-- Closed form of the evaluation: when the configuration covers every
accessed site, the result is the finite sum of the pairwise terms, each
coupling contributing exactly once, with index `k` offsetting the sites. -/
theorem energyTerms_eq_sum (J : List ℚ) (k : Nat) (σ : List ℚ)
    (h : k + J.length + 1 ≤ σ.length) :
    energyTerms J k σ =
      some (∑ i ∈ Finset.range J.length,
        J.getD i 0 * σ.getD (k + i) 0 * σ.getD (k + i + 1) 0) := by
  induction J generalizing k with
  | nil => simp [energyTerms]
  | cons Jij rest ih =>
    simp only [List.length_cons] at h
    have hka : k < σ.length := by omega
    have hkb : k + 1 < σ.length := by omega
    have hk : σ[k]? = some (σ.getD k 0) := by
      rw [List.getD_eq_getElem?_getD, List.getElem?_eq_getElem hka]
      rfl
    have hk1 : σ[k+1]? = some (σ.getD (k+1) 0) := by
      rw [List.getD_eq_getElem?_getD, List.getElem?_eq_getElem hkb]
      rfl
    have hrest := ih (k+1) (by omega)
    simp only [energyTerms, hk, hk1, hrest, List.length_cons]
    rw [Finset.sum_range_succ']
    congr 1
    have hshift : ∀ i : Nat,
        (Jij :: rest).getD (i + 1) 0 * σ.getD (k + (i + 1)) 0 * σ.getD (k + (i + 1) + 1) 0 =
        rest.getD i 0 * σ.getD (k + 1 + i) 0 * σ.getD (k + 1 + i + 1) 0 := by
      intro i
      have e1 : k + (i + 1) = k + 1 + i := by omega
      rw [e1]
      rfl
    rw [Finset.sum_congr rfl (fun i _ => hshift i)]
    simp [add_comm]

/-- Claim C1 (amended): for a coupling list `J` and a configuration covering
all referenced sites, `calculate_energy` returns the plain positively-signed
sum Σ_i J_i·σ_i·σ_{i+1} over the consecutive-pair couplings of the chain,
each pairwise term contributing exactly once; the evaluator has no field or
offset arguments and no leading negative sign. -/
theorem calculate_energy_eq_sum (J σ : List ℚ) (h : J.length + 1 ≤ σ.length) :
    calculate_energy J σ =
      some (∑ i ∈ Finset.range J.length,
        J.getD i 0 * σ.getD i 0 * σ.getD (i + 1) 0) := by
  have hsum := energyTerms_eq_sum J 0 σ (by omega)
  simpa using hsum

/-- Claim C1 witness. -/
theorem calculate_energy_eq_sum_witness :
    calculate_energy [1, -1] [1, -1, 1] =
      some (∑ i ∈ Finset.range 2,
        [(1 : ℚ), -1].getD i 0 * [(1 : ℚ), -1, 1].getD i 0 *
          [(1 : ℚ), -1, 1].getD (i + 1) 0) :=
  calculate_energy_eq_sum [1, -1] [1, -1, 1] (by decide)

/-- Claim C1, counterexample to the claim as stated: on the single coupling
(0,1) ↦ 1 with no fields and zero offset and the configuration (+1,+1), the
spec's formula H = −Σ J_ij·σ_i·σ_j − Σ h_i·σ_i + c gives −1, but
`calculate_energy` returns +1: the source evaluator carries no leading
negative sign. -/
theorem calculate_energy_sign_counterexample :
    calculate_energy [1] [1, 1] = some 1 ∧
    specEnergy [((0, 1), 1)] [] 0 [1, 1] = some (-1) ∧
    (1 : ℚ) ≠ -1 := by
  norm_num [calculate_energy, energyTerms, specEnergy, couplingTerms, fieldTerms]

/-- Claim C4: converting a ±1 spin configuration to the {0,1} binary encoding
via w = (s+1)/2 and back via 2w − 1 restores every entry exactly. -/
theorem spin_binary_roundtrip (σ : List ℤ) (h : ∀ s ∈ σ, s = 1 ∨ s = -1) :
    σ.map (fun s => binaryToSpin (spinToBinary s)) = σ := by
  induction σ with
  | nil => rfl
  | cons s rest ih =>
    have hs := h s (List.mem_cons_self s rest)
    have hrest := ih (fun x hx => h x (List.mem_cons_of_mem s hx))
    simp only [List.map_cons, hrest, List.cons.injEq, and_true]
    rcases hs with rfl | rfl <;> rfl

/-- Claim C4 witness. -/
theorem spin_binary_roundtrip_witness :
    [(1 : ℤ), -1].map (fun s => binaryToSpin (spinToBinary s)) = [1, -1] :=
  spin_binary_roundtrip [1, -1] (by decide)

/-- Claim C3: exhaustive search enumerates exactly the 2^n spin configurations
on n sites, evaluates each with `calculate_energy`, the minimum is a lower
bound on every evaluated energy and is attained, and the set of ground states
is exactly the set of enumerated configurations tied at the minimum — all tied
minimizers are discoverable, not just one representative. -/
theorem exhaustive_search_correct (J : List ℚ) (n : Nat) :
    (allConfigs n).length = 2 ^ n ∧
    (∀ σ : List ℚ, σ ∈ allConfigs n ↔ σ.length = n ∧ ∀ x ∈ σ, x = 1 ∨ x = -1) ∧
    (∀ σ ∈ allConfigs n, ∀ e m : ℚ, calculate_energy J σ = some e →
      minEnergy J n = some m → m ≤ e) ∧
    (∀ m : ℚ, minEnergy J n = some m →
      ∃ σ ∈ allConfigs n, calculate_energy J σ = some m) ∧
    (∀ σ : List ℚ, σ ∈ groundStates J n ↔
      σ ∈ allConfigs n ∧ calculate_energy J σ = minEnergy J n) := by
  refine ⟨length_allConfigs n, mem_allConfigs n, ?_, ?_, ?_⟩
  · intro σ hσ e m he hm
    have hmem : e ∈ observedEnergies J n := List.mem_filterMap.mpr ⟨σ, hσ, he⟩
    exact minList_le _ m hm e hmem
  · intro m hm
    have hmem : m ∈ observedEnergies J n := minList_mem _ m hm
    exact List.mem_filterMap.mp hmem
  · intro σ
    rw [groundStates, List.mem_filter, decide_eq_true_eq]

/-- Claim C3 witness. -/
theorem exhaustive_search_correct_witness :
    (allConfigs 3).length = 2 ^ 3 ∧ (0 : ℚ) ≤ 0 :=
  ⟨(exhaustive_search_correct [] 3).1,
    (exhaustive_search_correct [] 3).2.2.1 [1, 1, 1] (by decide) 0 0 rfl
      (by simp [minEnergy, observedEnergies, allConfigs, minList,
        calculate_energy, energyTerms, min_self])⟩

/-- For a ±1 factor p, J·p achieves the value −|J| exactly when J·p is
negative or J vanishes. -/
theorem mul_eq_neg_abs_iff (J p : ℚ) (hp : p = 1 ∨ p = -1) :
    (J * p = -|J|) ↔ (J * p < 0 ∨ J = 0) := by
  rcases hp with rfl | rfl
  · simp only [mul_one]
    constructor
    · intro h
      rcases lt_trichotomy J 0 with hJ | hJ | hJ
      · exact Or.inl hJ
      · exact Or.inr hJ
      · rw [abs_of_pos hJ] at h
        linarith
    · intro h
      rcases h with h | h
      · rw [abs_of_neg h, neg_neg]
      · subst h
        simp
  · simp only [mul_neg_one]
    constructor
    · intro h
      rcases lt_trichotomy J 0 with hJ | hJ | hJ
      · rw [abs_of_neg hJ, neg_neg] at h
        exfalso
        linarith
      · exact Or.inr hJ
      · exact Or.inl (by linarith)
    · intro h
      rcases h with h | h
      · have hJ : 0 < J := by linarith
        rw [abs_of_pos hJ]
      · subst h
        simp

/-- Claim C7 (amended): for every coupling strength J, exhaustive search on
N=2 with the single coupling (0,1) ↦ J and zero fields finds minimum energy
−|J|, achieved exactly by the configurations where σ_0·σ_1 has the opposite
sign to J (equivalently J·σ_0·σ_1 < 0), or by every configuration when
J = 0. -/
theorem exhaustive_N2_single_coupling (J : ℚ) :
    minEnergy [J] 2 = some (-|J|) ∧
    (∀ a b : ℚ, (a = 1 ∨ a = -1) → (b = 1 ∨ b = -1) →
      (calculate_energy [J] [a, b] = some (-|J|) ↔ (J * (a * b) < 0 ∨ J = 0))) := by
  have heval : ∀ a b : ℚ, calculate_energy [J] [a, b] = some (J * a * b + 0) := by
    intro a b
    rfl
  constructor
  · have hobs : observedEnergies [J] 2 = [J, -J, -J, J] := by
      simp [observedEnergies, allConfigs, calculate_energy, energyTerms]
    rw [minEnergy, hobs]
    simp only [minList, Option.some.injEq]
    rcases le_total 0 J with hJ | hJ
    · rw [abs_of_nonneg hJ]
      simp only [min_def]
      split_ifs <;> linarith
    · rw [abs_of_nonpos hJ]
      simp only [min_def]
      split_ifs <;> linarith
  · intro a b ha hb
    rw [heval a b]
    simp only [Option.some.injEq, add_zero]
    have hp : a * b = 1 ∨ a * b = -1 := by
      rcases ha with rfl | rfl <;> rcases hb with rfl | rfl <;> norm_num
    rw [mul_assoc]
    exact mul_eq_neg_abs_iff J (a * b) hp

/-- Claim C7 witness. -/
theorem exhaustive_N2_witness :
    calculate_energy [3] [1, -1] = some (-|(3 : ℚ)|) ↔
      ((3 : ℚ) * (1 * -1) < 0 ∨ (3 : ℚ) = 0) :=
  (exhaustive_N2_single_coupling 3).2 1 (-1) (Or.inl rfl) (Or.inr rfl)

/-- Claim C7, counterexample to the claim as stated: for J = 2 the minimum
over N=2 is −2, but the configuration (+1,+1) — where σ_0·σ_1 = 1 has the
same sign as J — has energy +2, not the minimum: the minimizers are the
opposite-sign configurations under the source's positively-signed
evaluator. -/
theorem exhaustive_N2_counterexample :
    minEnergy [2] 2 = some (-2) ∧
    calculate_energy [2] [1, 1] = some 2 ∧
    (2 : ℚ) ≠ -2 := by
  norm_num [minEnergy, observedEnergies, allConfigs, minList,
    calculate_energy, energyTerms, min_def]

/-- The batch reduction returns `none` exactly on an empty batch. -/
theorem heuristicResult_eq_none_iff (batch : List (List ℚ × ℚ)) :
    heuristicResult batch = none ↔ batch = [] := by
  cases batch with
  | nil => simp [heuristicResult]
  | cons r rest =>
    simp only [heuristicResult]
    cases heuristicResult rest <;> simp

/-- Claim C8: the heuristic stochastic search reduces the batch returned by
the sampler to a configuration of minimum observed energy in that batch —
nothing more: with a batch containing only (+1,+1,+1), whose energy under the
N=3 instance is 0, the returned "best found" energy 0 is strictly worse than
the true global minimum −2, and no retry or correctness check takes place. -/
theorem heuristic_min_of_batch :
    (∀ (batch : List (List ℚ × ℚ)) (r : List ℚ × ℚ),
      heuristicResult batch = some r → r ∈ batch ∧ ∀ x ∈ batch, r.2 ≤ x.2) ∧
    (heuristicResult [([1, 1, 1], 0)] = some ([1, 1, 1], 0) ∧
      calculate_energy [1, -1] [1, 1, 1] = some 0 ∧
      minEnergy [1, -1] 3 = some (-2) ∧
      (-2 : ℚ) < 0) := by
  constructor
  · intro batch
    induction batch with
    | nil =>
      intro r hr
      cases hr
    | cons y ys ih =>
      intro r hr
      unfold heuristicResult at hr
      cases h : heuristicResult ys with
      | none =>
        rw [h] at hr
        simp only [Option.some.injEq] at hr
        subst hr
        have hnil : ys = [] := (heuristicResult_eq_none_iff ys).mp h
        subst hnil
        refine ⟨List.mem_cons_self y [], ?_⟩
        intro x hx
        rcases List.mem_cons.mp hx with rfl | hx
        · exact le_rfl
        · cases hx
      | some b =>
        rw [h] at hr
        simp only [Option.some.injEq] at hr
        rcases ih b h with ⟨hbmem, hbmin⟩
        by_cases hlt : b.2 < y.2
        · rw [if_pos hlt] at hr
          subst hr
          refine ⟨List.mem_cons_of_mem y hbmem, ?_⟩
          intro x hx
          rcases List.mem_cons.mp hx with rfl | hx
          · exact le_of_lt hlt
          · exact hbmin x hx
        · rw [if_neg hlt] at hr
          subst hr
          refine ⟨List.mem_cons_self y ys, ?_⟩
          intro x hx
          rcases List.mem_cons.mp hx with rfl | hx
          · exact le_rfl
          · exact le_trans (le_of_not_lt hlt) (hbmin x hx)
  · refine ⟨rfl, ?_, ?_, by norm_num⟩
    · norm_num [calculate_energy, energyTerms]
    · norm_num [minEnergy, observedEnergies, allConfigs, minList,
        calculate_energy, energyTerms, min_def]

/-- Claim C8 witness. -/
theorem heuristic_min_of_batch_witness :
    (([(1 : ℚ)], (5 : ℚ)) ∈ [([(1 : ℚ)], (5 : ℚ))]) ∧
      ∀ x ∈ [([(1 : ℚ)], (5 : ℚ))], (5 : ℚ) ≤ x.2 :=
  heuristic_min_of_batch.1 [([1], 5)] ([1], 5) rfl
